import Mathlib

/-!
Verification of the domain-lookup WHOIS server (`src/main.py`).

Python strings are modelled as lists of Unicode code points (`List Nat`);
`codes` converts a Lean string literal to this representation.  The external
WHOIS process, real time, and the network are abstracted: a `ProcOutcome`
value records what the spawned resolver process did (timed out, exited with
a status and output streams, or raised), and an `Env` maps each query string
to such an outcome.  Timestamps carry no information relevant to any claim
and are omitted from the embedded `QueryResult`.
-/

namespace DomainLookup

/-- A Python string, as its list of code points. -/
abbrev PyStr := List Nat

/-- Code points of a Lean string literal, for writing concrete Python strings. -/
def codes (s : String) : PyStr := s.toList.map Char.toNat

/-- Python `str.isspace` for the ASCII whitespace characters
(space, tab, LF, VT, FF, CR) — the ones `str.strip()` removes that occur
in WHOIS output. -/
def isSpace (n : Nat) : Bool :=
  n == 32 || n == 9 || n == 10 || n == 11 || n == 12 || n == 13

/-- Python `str.lower` on one code point (ASCII range, the case relevant to
domain names and WHOIS field keys). -/
def lowerChar (n : Nat) : Nat := if 65 ≤ n ∧ n ≤ 90 then n + 32 else n

/-- Python `str.lower`. -/
def pyLower (s : PyStr) : PyStr := s.map lowerChar

/-- Python `str.strip()`: drop whitespace from both ends. -/
def pyStrip (s : PyStr) : PyStr :=
  ((s.dropWhile isSpace).reverse.dropWhile isSpace).reverse

/-- Auxiliary for `replaceStr`: scan left to right, deleting each
non-overlapping occurrence of `pat`; `fuel` bounds the recursion and is
always at least the length of the remaining string. -/
def replaceStrAux (pat : PyStr) : Nat → PyStr → PyStr
  | 0, s => s
  | _ + 1, [] => []
  | fuel + 1, c :: rest =>
    if pat ≠ [] ∧ pat.isPrefixOf (c :: rest) then
      replaceStrAux pat fuel (List.drop (pat.length - 1) rest)
    else
      c :: replaceStrAux pat fuel rest

/-- Python `s.replace(pat, '')`: delete every non-overlapping occurrence of
`pat`, scanning left to right. -/
def replaceStr (pat : PyStr) (s : PyStr) : PyStr := replaceStrAux pat s.length s

/-- Python `s.split(sep)` for a one-character separator: all parts, empty
parts kept. -/
def pySplit (sep : Nat) : PyStr → List PyStr
  | [] => [[]]
  | c :: rest =>
    let r := pySplit sep rest
    if c = sep then [] :: r
    else
      match r with
      | [] => [[c]]
      | p :: ps => (c :: p) :: ps

/-- Python `pat in hay`: substring containment. -/
def strContains (hay pat : PyStr) : Bool :=
  match hay with
  | [] => pat.isEmpty
  | _ :: rest => pat.isPrefixOf hay || strContains rest pat

/-- The domain-input cleanup performed at the top of `whois_domain`:
`domain.strip().lower()`, remove `http://` and `https://`, keep only the
part before the first `/`, then before the first `:`. -/
def clean (domain : PyStr) : PyStr :=
  let d1 := pyLower (pyStrip domain)
  let d2 := replaceStr (codes "https://") (replaceStr (codes "http://") d1)
  let d3 := d2.takeWhile (· ≠ 47)
  d3.takeWhile (· ≠ 58)

/-- A value in `parsed_fields`: a plain string, promoted to an ordered list
when the key repeats. -/
inductive FieldValue where
  | str (s : PyStr)
  | list (l : List PyStr)
  deriving DecidableEq, Repr

/-- The repeated-key promotion of `run_whois_command`: a second occurrence
turns the stored string into a two-element list; later occurrences append. -/
def promoteVal (w : FieldValue) (v : PyStr) : FieldValue :=
  match w with
  | .str s => .list [s, v]
  | .list l => .list (l ++ [v])

/-- Insertion-ordered dictionary update used for `parsed_fields`: a fresh key
is appended holding a plain string; an existing key's value is promoted. -/
def insertField : List (PyStr × FieldValue) → PyStr → PyStr → List (PyStr × FieldValue)
  | [], k, v => [(k, .str v)]
  | (k', w) :: rest, k, v =>
    if k' = k then (k', promoteVal w v) :: rest
    else (k', w) :: insertField rest k v

/-- Lookup in an insertion-ordered dictionary (first matching key). -/
def dictLookup (k : PyStr) : List (PyStr × α) → Option α
  | [] => none
  | (k', v) :: rest => if k' = k then some v else dictLookup k rest

/-- Python `d[k] = v`: overwrite in place, or append a fresh key. -/
def dictSet : List (PyStr × α) → PyStr → α → List (PyStr × α)
  | [], k, v => [(k, v)]
  | (k', w) :: rest, k, v =>
    if k' = k then (k', v) :: rest
    else (k', w) :: dictSet rest k v

/-- One iteration of the field-extraction loop of `run_whois_command`: strip
the line; if it has a `:` and starts with neither `%` nor `#`, split at the
first `:`, normalize the key (strip, lower, spaces to underscores), strip the
value, and keep the pair when both are non-empty. -/
def lineToPair (line : PyStr) : Option (PyStr × PyStr) :=
  let s := pyStrip line
  if 58 ∈ s ∧ s.head? ≠ some 37 ∧ s.head? ≠ some 35 then
    let key := (pyLower (pyStrip (s.takeWhile (· ≠ 58)))).map
      (fun c => if c = 32 then 95 else c)
    let value := pyStrip ((s.dropWhile (· ≠ 58)).tail)
    if value ≠ [] ∧ key ≠ [] then some (key, value) else none
  else none

/-- The `parsed_fields` dictionary built from a list of raw output lines. -/
def parseLines (lines : List PyStr) : List (PyStr × FieldValue) :=
  (lines.filterMap lineToPair).foldl (fun acc p => insertField acc p.1 p.2) []

/-- `parsed_fields` of a raw output text: split on newlines, then run the
field-extraction loop. -/
def parseFields (raw : PyStr) : List (PyStr × FieldValue) :=
  parseLines (pySplit 10 raw)

/-- What the spawned `whois` process did, as observed by `run_whois_command`. -/
inductive ProcOutcome where
  | timeout
  | exited (code : Int) (stdout stderr : PyStr)
  | raised (msg : PyStr)

/-- The derived `analysis` mapping attached by `whois_domain`. -/
structure Analysis where
  registered : Bool
  has_registrar : Bool
  has_creation_date : Bool
  has_expiry_date : Bool
  deriving DecidableEq, Repr

/-- The result dictionary of a single lookup.  `query` is the string handed
to the resolver; exactly one of `error` or (`raw_output`, `parsed_fields`)
is populated by `run_whois_command`; `is_registered` and `analysis` are added
afterwards by `whois_domain` only.  The timestamp field carries wall-clock
data outside the embedding and is omitted. -/
structure QueryResult where
  query : PyStr
  error : Option PyStr := none
  raw_output : Option PyStr := none
  parsed_fields : Option (List (PyStr × FieldValue)) := none
  is_registered : Option Bool := none
  analysis : Option Analysis := none
  deriving DecidableEq, Repr

/-- `run_whois_command`, as a function of the process outcome: the timeout
branch, the non-zero-exit branch (stderr trimmed, `"Unknown error"` when
empty), the success branch (raw output kept and parsed), and the
unexpected-exception branch. -/
def run_whois_command (query : PyStr) (timeout : Nat) (out : ProcOutcome) :
    QueryResult :=
  match out with
  | .timeout =>
    { query := query
      error := some (codes "WHOIS query timed out after " ++
        codes (toString timeout) ++ codes " seconds") }
  | .exited code stdout stderr =>
    if code ≠ 0 then
      let m := pyStrip stderr
      { query := query
        error := some (codes "WHOIS command failed: " ++
          (if m = [] then codes "Unknown error" else m)) }
    else
      { query := query
        raw_output := some stdout
        parsed_fields := some (parseFields stdout) }
  | .raised msg =>
    { query := query
      error := some (codes "Internal error: " ++ msg) }

/-- The six availability phrases scanned for by `whois_domain`. -/
def availabilityPhrases : List PyStr :=
  [codes "no match", codes "not found", codes "no data found",
   codes "status: available", codes "no matching record",
   codes "not registered"]

/-- Python truthiness of an optional field value (`bool(d.get(k))`). -/
def truthy : Option FieldValue → Bool
  | none => false
  | some (.str s) => !s.isEmpty
  | some (.list l) => !l.isEmpty

/-- The environment a lookup runs in: what the resolver process does for each
query string, and whether the bulk-path task wrapping a given raw domain
crashes outside the handled paths. -/
structure Env where
  whoisOutcome : PyStr → ProcOutcome
  taskCrash : PyStr → Bool

/-- `whois_domain`: clean the input, run the WHOIS command, and on a
non-error result attach `is_registered` (substring scan of the lower-cased
raw output for the availability phrases) and the `analysis` mapping. -/
def whois_domain (domain : PyStr) (env : Env) : QueryResult :=
  let d := clean domain
  let r := run_whois_command d 10 (env.whoisOutcome d)
  if r.error = none then
    let rawL := pyLower (r.raw_output.getD [])
    let pf := r.parsed_fields.getD []
    let isReg := !(availabilityPhrases.any (fun p => strContains rawL p))
    { r with
      is_registered := some isReg
      analysis := some
        { registered := isReg
          has_registrar := truthy (dictLookup (codes "registrar") pf)
          has_creation_date := truthy (dictLookup (codes "creation_date") pf)
            || truthy (dictLookup (codes "created") pf)
          has_expiry_date := truthy (dictLookup (codes "expiry_date") pf)
            || truthy (dictLookup (codes "expires") pf) } }
  else r

/-- The `summary` block of a bulk lookup.  Counts are integers, as in the
source. -/
structure Summary where
  total_domains : Int
  registered_domains : Int
  available_domains : Int
  errors : Int
  deriving DecidableEq, Repr

/-- The return value of `whois_domains`. -/
structure BulkResult where
  results : List (PyStr × QueryResult)
  summary : Summary
  deriving DecidableEq, Repr

/-- What `asyncio.gather(..., return_exceptions=True)` hands back for one
task of the bulk path: the exception object, or the `(domain, result)` pair
returned by `lookup_single` — keyed by the raw `domain` argument. -/
def taskOutcome (env : Env) (domain : PyStr) : Option (PyStr × QueryResult) :=
  if env.taskCrash domain then none
  else some (domain, whois_domain domain env)

/-- The aggregation loop of `whois_domains` over the gathered outcomes:
state is (`domain_results`, `registered_count`, `error_count`). -/
def bulkStep (st : List (PyStr × QueryResult) × Int × Int)
    (oc : Option (PyStr × QueryResult)) :
    List (PyStr × QueryResult) × Int × Int :=
  match oc with
  | none => (st.1, st.2.1, st.2.2 + 1)
  | some (d, r) =>
    (dictSet st.1 d r,
     st.2.1 + (if r.is_registered.getD false then 1 else 0),
     st.2.2 + (if r.error.isSome then 1 else 0))

/-- `whois_domains`: look up every domain, tolerate per-task crashes, and
aggregate results and summary statistics. -/
def whois_domains (domains : List PyStr) (env : Env) : BulkResult :=
  let outcomes := domains.map (taskOutcome env)
  let st := outcomes.foldl bulkStep ([], 0, 0)
  { results := st.1
    summary :=
      { total_domains := domains.length
        registered_domains := st.2.1
        available_domains := (domains.length : Int) - st.2.1 - st.2.2
        errors := st.2.2 } }

/-- A result that carries an `error` and neither output field. -/
def errorShape (r : QueryResult) : Prop :=
  r.error.isSome ∧ r.raw_output = none ∧ r.parsed_fields = none

/-- A result that carries `raw_output` and `parsed_fields` and no `error`. -/
def successShape (r : QueryResult) : Prop :=
  r.error = none ∧ r.raw_output.isSome ∧ r.parsed_fields.isSome

/-- A parsed key as normalized by the extraction loop: no upper-case ASCII
letter and no space character. -/
def keyOK (k : PyStr) : Prop := ∀ c ∈ k, ¬(65 ≤ c ∧ c ≤ 90) ∧ c ≠ 32

/-- No empty value is stored, neither as a plain string nor inside a
promoted list. -/
def valOK : FieldValue → Prop
  | .str s => s ≠ []
  | .list l => ∀ s ∈ l, s ≠ []

/-- A raw line that the extraction loop skips: blank, comment/banner
(`%`/`#`), or without a `:` separator. -/
def skipLine (line : PyStr) : Prop :=
  pyStrip line = [] ∨ (pyStrip line).head? = some 37 ∨
    (pyStrip line).head? = some 35 ∨ 58 ∉ pyStrip line

/-- The ordered values attached to key `k` among extracted pairs. -/
def occurrences (k : PyStr) : List (PyStr × PyStr) → List PyStr
  | [] => []
  | (k', v) :: rest =>
    if k' = k then v :: occurrences k rest else occurrences k rest

/-- The ordered values the extraction loop produces for key `k` on a raw
text. -/
def fieldOccurrences (k : PyStr) (raw : PyStr) : List PyStr :=
  occurrences k ((pySplit 10 raw).filterMap lineToPair)

/-- A fixed environment: every query succeeds with a one-field record and no
bulk task crashes. -/
def envOk : Env :=
  { whoisOutcome := fun _ => .exited 0 (codes "Domain Name: X") []
    taskCrash := fun _ => false }

/-- Environment whose resolver always reports a no-match record. -/
def envNoMatch : Env :=
  { whoisOutcome := fun _ =>
      .exited 0 (codes "No match for domain \x22NOPE123XYZ.COM\x22.") []
    taskCrash := fun _ => false }

/-- Environment for the three-domain bulk scenario: every lookup succeeds
but the task wrapping `b.com` crashes. -/
def envC4 : Env :=
  { whoisOutcome := fun _ => .exited 0 (codes "Domain Name: X") []
    taskCrash := fun d => decide (d = codes "b.com") }

/-- The `domain_results` part of the aggregation loop, in isolation. -/
def resStep (acc : List (PyStr × QueryResult))
    (oc : Option (PyStr × QueryResult)) : List (PyStr × QueryResult) :=
  match oc with
  | none => acc
  | some (d, r) => dictSet acc d r

/-- One update of the value stored under a key, as a function of the prior
stored value. -/
def stepVal (o : Option FieldValue) (v : PyStr) : FieldValue :=
  match o with
  | none => .str v
  | some w => promoteVal w v

/-- The value stored under a key after a run of occurrences. -/
def accVal (o : Option FieldValue) (vs : List PyStr) : Option FieldValue :=
  vs.foldl (fun o v => some (stepVal o v)) o

section ListHelpers

variable {α β : Type} {p : α → Bool} {f : α → α} {a : α} {l : List α}

lemma mem_of_mem_takeWhile (h : a ∈ l.takeWhile p) : a ∈ l := by
  induction l with
  | nil => simp [List.takeWhile] at h
  | cons b t ih =>
    rw [List.takeWhile] at h
    cases hpb : p b with
    | true =>
      rw [hpb] at h
      rcases h with _ | h
      · exact List.mem_cons_self _ _
      · exact List.mem_cons_of_mem _ (ih (by assumption))
    | false => rw [hpb] at h; cases h

lemma holds_of_mem_takeWhile (h : a ∈ l.takeWhile p) : p a = true := by
  induction l with
  | nil => simp [List.takeWhile] at h
  | cons b t ih =>
    rw [List.takeWhile] at h
    cases hpb : p b with
    | true =>
      rw [hpb] at h
      rcases h with _ | h
      · exact hpb
      · exact ih (by assumption)
    | false => rw [hpb] at h; cases h

lemma mem_of_mem_dropWhile (h : a ∈ l.dropWhile p) : a ∈ l := by
  induction l with
  | nil => simp [List.dropWhile] at h
  | cons b t ih =>
    rw [List.dropWhile] at h
    cases hpb : p b with
    | true => rw [hpb] at h; exact List.mem_cons_of_mem _ (ih h)
    | false => rw [hpb] at h; exact h

lemma takeWhile_eq_self_of_all (h : ∀ a ∈ l, p a = true) :
    l.takeWhile p = l := by
  induction l with
  | nil => rfl
  | cons b t ih =>
    rw [List.takeWhile, h b (List.mem_cons_self _ _)]
    exact congrArg (b :: ·) (ih fun a ha => h a (List.mem_cons_of_mem _ ha))

lemma map_eq_self_of_fixed (h : ∀ a ∈ l, f a = a) : l.map f = l := by
  induction l with
  | nil => rfl
  | cons b t ih =>
    rw [List.map_cons, h b (List.mem_cons_self _ _)]
    exact congrArg (b :: ·) (ih fun a ha => h a (List.mem_cons_of_mem _ ha))

end ListHelpers

lemma mem_pyStrip {a : Nat} {s : PyStr} (h : a ∈ pyStrip s) : a ∈ s := by
  unfold pyStrip at h
  rw [List.mem_reverse] at h
  have h1 := mem_of_mem_dropWhile h
  rw [List.mem_reverse] at h1
  exact mem_of_mem_dropWhile h1

/-- C1.  The bulk summary always balances: registered + available + errors
equals total, and total is the length of the input list. -/
theorem bulk_summary_balances (domains : List PyStr) (env : Env) :
    (whois_domains domains env).summary.registered_domains +
      (whois_domains domains env).summary.available_domains +
      (whois_domains domains env).summary.errors =
      (whois_domains domains env).summary.total_domains ∧
    (whois_domains domains env).summary.total_domains = domains.length := by
  have key : ∀ n r e : Int, r + (n - r - e) + e = n := fun n r e => by ring
  exact ⟨key _ _ _, rfl⟩

/-- C2.  Every `run_whois_command` result has exactly one of the two shapes:
an `error`, or both `raw_output` and `parsed_fields` — on the timeout
branch, the non-zero-exit branch, the unexpected-exception branch, and the
success branch alike. -/
theorem run_whois_command_exclusive_shapes (q : PyStr) (t : Nat)
    (out : ProcOutcome) :
    (errorShape (run_whois_command q t out) ∧
      ¬ successShape (run_whois_command q t out)) ∨
    (successShape (run_whois_command q t out) ∧
      ¬ errorShape (run_whois_command q t out)) := by
  cases out with
  | timeout => left; simp [run_whois_command, errorShape, successShape]
  | exited code stdout stderr =>
    by_cases h : code = 0
    · right; simp [run_whois_command, h, errorShape, successShape]
    · left; simp [run_whois_command, h, errorShape, successShape]
  | raised msg => left; simp [run_whois_command, errorShape, successShape]

/-- C9.  On non-zero resolver exit the result is an error-shaped failure
whose message is the trimmed error stream, or `"Unknown error"` when the
trimmed stream is empty. -/
theorem nonzero_exit_error_message (q : PyStr) (t : Nat) (code : Int)
    (stdout stderr : PyStr) (h : code ≠ 0) :
    errorShape (run_whois_command q t (.exited code stdout stderr)) ∧
    (run_whois_command q t (.exited code stdout stderr)).error =
      some (codes "WHOIS command failed: " ++
        (if pyStrip stderr = [] then codes "Unknown error"
         else pyStrip stderr)) := by
  constructor
  · simp [run_whois_command, h, errorShape]
  · simp [run_whois_command, h]

/-- Witness for C9 at a concrete non-zero exit with whitespace-padded
stderr. -/
theorem nonzero_exit_error_message_witness :
    (1 : Int) ≠ 0 ∧
    (run_whois_command (codes "x.com") 10
        (.exited 1 [] (codes " boom "))).error =
      some (codes "WHOIS command failed: boom") := by
  refine ⟨by decide, ?_⟩
  rw [(nonzero_exit_error_message (codes "x.com") 10 1 [] (codes " boom ")
    (by decide)).2]
  decide

/-- C10.  On every non-error single-domain result, the `analysis` mapping
carries a `registered` entry equal to the top-level `is_registered`. -/
theorem analysis_registered_matches (d : PyStr) (env : Env)
    (h : (whois_domain d env).error = none) :
    ∃ b a, (whois_domain d env).is_registered = some b ∧
      (whois_domain d env).analysis = some a ∧ a.registered = b := by
  unfold whois_domain at *
  by_cases he :
      (run_whois_command (clean d) 10 (env.whoisOutcome (clean d))).error
        = none
  · rw [if_pos he]
    exact ⟨_, _, rfl, rfl, rfl⟩
  · rw [if_neg he] at h
    exact absurd h he

/-- Witness for C10 at a concrete successful lookup. -/
theorem analysis_registered_matches_witness :
    (whois_domain (codes "a.com") envOk).error = none ∧
    ∃ b a, (whois_domain (codes "a.com") envOk).is_registered = some b ∧
      (whois_domain (codes "a.com") envOk).analysis = some a ∧
      a.registered = b := by
  refine ⟨by decide, ?_⟩
  exact analysis_registered_matches (codes "a.com") envOk (by decide)

lemma isPrefixOf_iff_ex (p s : PyStr) : p.isPrefixOf s = true ↔ ∃ t, p ++ t = s := by
  induction p generalizing s with
  | nil => simp [List.isPrefixOf]
  | cons a as ih =>
    cases s with
    | nil => simp [List.isPrefixOf]
    | cons b bs =>
      simp only [List.isPrefixOf, Bool.and_eq_true, beq_iff_eq, ih]
      constructor
      · rintro ⟨rfl, t, rfl⟩
        exact ⟨t, rfl⟩
      · rintro ⟨t, h⟩
        injection h with h1 h2
        exact ⟨h1, t, h2⟩

lemma isPrefixOf_mem {p s : PyStr} {a : Nat} (h : p.isPrefixOf s = true)
    (ha : a ∈ p) : a ∈ s := by
  obtain ⟨t, rfl⟩ := (isPrefixOf_iff_ex p s).mp h
  exact List.mem_append_left _ ha

/-- `strContains` is exactly substring containment. -/
lemma strContains_iff (hay pat : PyStr) :
    strContains hay pat = true ↔ ∃ pre post, pre ++ pat ++ post = hay := by
  induction hay with
  | nil =>
    constructor
    · intro h
      have : pat = [] := by simpa [strContains, List.isEmpty_iff] using h
      exact ⟨[], [], by simp [this]⟩
    · rintro ⟨pre, post, h⟩
      obtain ⟨h1, h2⟩ := List.append_eq_nil.mp h
      obtain ⟨h3, h4⟩ := List.append_eq_nil.mp h1
      subst h4
      simp [strContains]
  | cons c rest ih =>
    simp only [strContains, Bool.or_eq_true, ih, isPrefixOf_iff_ex]
    constructor
    · rintro (⟨t, ht⟩ | ⟨pre, post, h⟩)
      · exact ⟨[], t, by simpa using ht⟩
      · exact ⟨c :: pre, post, by simp [← h]⟩
    · rintro ⟨pre, post, h⟩
      cases pre with
      | nil =>
        left
        exact ⟨post, by simpa using h⟩
      | cons x pre' =>
        right
        rw [List.cons_append, List.cons_append] at h
        injection h with h1 h2
        exact ⟨pre', post, h2⟩

/-- C5.  On every domain lookup that produced raw output, `is_registered`
is `false` exactly when the lower-cased raw text contains one of the six
availability phrases as a substring, and is `true` exactly otherwise — so
the field is always populated with one of the two booleans. -/
theorem is_registered_phrase_scan (d : PyStr) (env : Env) (raw : PyStr)
    (h : (whois_domain d env).error = none)
    (hraw : (whois_domain d env).raw_output = some raw) :
    ((whois_domain d env).is_registered = some false ↔
      ∃ p ∈ availabilityPhrases, ∃ pre post, pre ++ p ++ post = pyLower raw) ∧
    ((whois_domain d env).is_registered = some true ↔
      ¬ ∃ p ∈ availabilityPhrases, ∃ pre post,
        pre ++ p ++ post = pyLower raw) := by
  cases hout : env.whoisOutcome (clean d) with
  | timeout =>
    exfalso
    simp [whois_domain, run_whois_command, hout] at h
  | exited code stdout stderr =>
    by_cases hc : code = 0
    · subst hc
      simp only [whois_domain, run_whois_command, hout] at hraw ⊢
      simp only [ne_eq, not_true_eq_false, if_false, reduceIte] at hraw ⊢
      simp only [Option.some.injEq] at hraw
      subst hraw
      constructor <;> simp [List.any_eq_true, strContains_iff]
    · exfalso
      simp [whois_domain, run_whois_command, hout, hc] at h
  | raised msg =>
    exfalso
    simp [whois_domain, run_whois_command, hout] at h

/-- Witness for C5: the documented no-match text yields
`is_registered = false`, and a phrase-free text yields
`is_registered = true`. -/
theorem is_registered_phrase_scan_witness :
    (whois_domain (codes "nope123xyz.com") envNoMatch).error = none ∧
    (whois_domain (codes "nope123xyz.com") envNoMatch).raw_output =
      some (codes "No match for domain \x22NOPE123XYZ.COM\x22.") ∧
    (whois_domain (codes "nope123xyz.com") envNoMatch).is_registered =
      some false ∧
    (whois_domain (codes "a.com") envOk).error = none ∧
    (whois_domain (codes "a.com") envOk).raw_output =
      some (codes "Domain Name: X") ∧
    (whois_domain (codes "a.com") envOk).is_registered = some true := by
  refine ⟨by decide, by decide, ?_, by decide, by decide, ?_⟩
  · refine ((is_registered_phrase_scan (codes "nope123xyz.com") envNoMatch
      (codes "No match for domain \x22NOPE123XYZ.COM\x22.")
      (by decide) (by decide)).1).mpr ?_
    exact ⟨codes "no match", by decide,
      [], codes " for domain \x22nope123xyz.com\x22.", by decide⟩
  · refine ((is_registered_phrase_scan (codes "a.com") envOk
      (codes "Domain Name: X") (by decide) (by decide)).2).mpr ?_
    rintro ⟨p, hp, pre, post, heq⟩
    have hcontains : strContains (pyLower (codes "Domain Name: X")) p =
        true := (strContains_iff _ _).mpr ⟨pre, post, heq⟩
    simp only [availabilityPhrases, List.mem_cons, List.not_mem_nil,
      or_false] at hp
    rcases hp with rfl | rfl | rfl | rfl | rfl | rfl <;>
      exact absurd hcontains (by decide)

lemma lowerChar_idem (n : Nat) : lowerChar (lowerChar n) = lowerChar n := by
  unfold lowerChar
  split_ifs <;> omega

lemma replaceStrAux_subset (pat : PyStr) :
    ∀ (fuel : Nat) (s : PyStr), ∀ a ∈ replaceStrAux pat fuel s, a ∈ s := by
  intro fuel
  induction fuel with
  | zero =>
    intro s a ha
    simpa [replaceStrAux] using ha
  | succ n ih =>
    intro s a ha
    cases s with
    | nil => simp [replaceStrAux] at ha
    | cons c rest =>
      simp only [replaceStrAux] at ha
      split at ha
      · exact List.mem_cons_of_mem _ (List.drop_subset _ _ (ih _ _ ha))
      · rcases List.mem_cons.mp ha with rfl | ha
        · exact List.mem_cons_self _ _
        · exact List.mem_cons_of_mem _ (ih _ _ ha)

lemma replaceStrAux_noop {c0 : Nat} {pat : PyStr} (hc : c0 ∈ pat) :
    ∀ (fuel : Nat) (s : PyStr), c0 ∉ s → replaceStrAux pat fuel s = s := by
  intro fuel
  induction fuel with
  | zero => intro s _; simp [replaceStrAux]
  | succ n ih =>
    intro s hs
    cases s with
    | nil => simp [replaceStrAux]
    | cons c rest =>
      have hnp : ¬(pat ≠ [] ∧ pat.isPrefixOf (c :: rest) = true) := by
        rintro ⟨-, hpre⟩
        exact hs (isPrefixOf_mem hpre hc)
      simp only [replaceStrAux]
      rw [if_neg hnp]
      exact congrArg (c :: ·)
        (ih rest fun hr => hs (List.mem_cons_of_mem _ hr))

lemma replaceStr_subset {pat s : PyStr} {a : Nat} (h : a ∈ replaceStr pat s) :
    a ∈ s :=
  replaceStrAux_subset pat s.length s a h

lemma replaceStr_noop {c0 : Nat} {pat s : PyStr} (hc : c0 ∈ pat)
    (hs : c0 ∉ s) : replaceStr pat s = s :=
  replaceStrAux_noop hc s.length s hs

/-- Every code point of a cleaned domain is lower-case-fixed and is neither
`/` nor `:`. -/
lemma clean_char_fixed (d : PyStr) :
    ∀ a ∈ clean d, lowerChar a = a ∧ a ≠ 47 ∧ a ≠ 58 := by
  intro a ha
  simp only [clean] at ha
  have h58 : a ≠ 58 := by simpa using holds_of_mem_takeWhile ha
  have ha3 := mem_of_mem_takeWhile ha
  have h47 : a ≠ 47 := by simpa using holds_of_mem_takeWhile ha3
  have ha2 := mem_of_mem_takeWhile ha3
  have ha1 := replaceStr_subset (replaceStr_subset ha2)
  obtain ⟨b, -, rfl⟩ := List.mem_map.mp ha1
  exact ⟨lowerChar_idem b, h47, h58⟩

/-- C8 counterexample: cleanup is not idempotent.  Stripping a protocol can
expose whitespace, which only a second cleanup removes. -/
theorem clean_not_idempotent :
    clean (codes "http:// a") = codes " a" ∧
    clean (clean (codes "http:// a")) = codes "a" ∧
    clean (clean (codes "http:// a")) ≠ clean (codes "http:// a") := by
  decide

/-- C8 amended: re-cleaning equals trimming the cleaned string, so cleanup
is idempotent exactly on inputs whose cleaned form carries no leading or
trailing whitespace. -/
theorem clean_clean_eq_strip_clean (d : PyStr) :
    clean (clean d) = pyStrip (clean d) := by
  have hfix : ∀ a ∈ clean d, lowerChar a = a ∧ a ≠ 47 ∧ a ≠ 58 :=
    clean_char_fixed d
  set y := clean d with hy
  have hsub : ∀ a ∈ pyStrip y, a ∈ y := fun a ha => mem_pyStrip ha
  have hlow : pyLower (pyStrip y) = pyStrip y :=
    map_eq_self_of_fixed fun a ha => (hfix a (hsub a ha)).1
  have h47 : (47 : Nat) ∉ pyStrip y := fun h => (hfix 47 (hsub _ h)).2.1 rfl
  have h58 : (58 : Nat) ∉ pyStrip y := fun h => (hfix 58 (hsub _ h)).2.2 rfl
  have t47 : List.takeWhile (fun x => decide (x ≠ 47)) (pyStrip y) =
      pyStrip y := by
    apply takeWhile_eq_self_of_all
    intro a ha
    rw [decide_eq_true_eq]
    exact fun heq => h47 (heq ▸ ha)
  have t58 : List.takeWhile (fun x => decide (x ≠ 58)) (pyStrip y) =
      pyStrip y := by
    apply takeWhile_eq_self_of_all
    intro a ha
    rw [decide_eq_true_eq]
    exact fun heq => h58 (heq ▸ ha)
  simp only [clean]
  rw [show pyLower (pyStrip y) = pyStrip y from hlow,
    replaceStr_noop (show (58 : Nat) ∈ codes "http://" by decide) h58,
    replaceStr_noop (show (58 : Nat) ∈ codes "https://" by decide) h58,
    t47, t58]

lemma foldl_bulkStep_results (ocs : List (Option (PyStr × QueryResult))) :
    ∀ acc r e, (ocs.foldl bulkStep (acc, r, e)).1 = ocs.foldl resStep acc := by
  induction ocs with
  | nil => intro acc r e; rfl
  | cons oc rest ih =>
    intro acc r e
    cases oc with
    | none => exact ih acc r (e + 1)
    | some p =>
      obtain ⟨d, rr⟩ := p
      exact ih (dictSet acc d rr)
        (r + if rr.is_registered.getD false then 1 else 0)
        (e + if rr.error.isSome then 1 else 0)

lemma dictLookup_dictSet_self (l : List (PyStr × α)) (k : PyStr) (v : α) :
    dictLookup k (dictSet l k v) = some v := by
  induction l with
  | nil => simp [dictSet, dictLookup]
  | cons p rest ih =>
    obtain ⟨k', w⟩ := p
    by_cases h : k' = k
    · subst h; simp [dictSet, dictLookup]
    · simp [dictSet, dictLookup, h, ih]

lemma dictLookup_dictSet_ne {k k0 : PyStr} (h : k0 ≠ k)
    (l : List (PyStr × α)) (v : α) :
    dictLookup k (dictSet l k0 v) = dictLookup k l := by
  induction l with
  | nil => simp [dictSet, dictLookup, h]
  | cons p rest ih =>
    obtain ⟨k', w⟩ := p
    by_cases hk : k' = k0
    · subst hk
      simp [dictSet, dictLookup, h]
    · by_cases hkk : k' = k <;>
        simp [dictSet, dictLookup, hk, hkk, ih, Ne.symm h]

lemma dictLookup_foldl_resStep (d : PyStr) (v : QueryResult) :
    ∀ (ocs : List (Option (PyStr × QueryResult)))
      (acc : List (PyStr × QueryResult)),
      (∀ r, some (d, r) ∈ ocs → r = v) →
      (dictLookup d acc = some v ∨ ∃ r, some (d, r) ∈ ocs) →
      dictLookup d (ocs.foldl resStep acc) = some v := by
  intro ocs
  induction ocs with
  | nil =>
    intro acc _ hbase
    rcases hbase with h | ⟨r, hr⟩
    · exact h
    · exact absurd hr (List.not_mem_nil _)
  | cons oc rest ih =>
    intro acc hval hbase
    have hval' : ∀ r, some (d, r) ∈ rest → r = v := fun r hr =>
      hval r (List.mem_cons_of_mem _ hr)
    apply ih _ hval'
    cases oc with
    | none =>
      rcases hbase with h | ⟨r, hr⟩
      · exact Or.inl h
      · rcases List.mem_cons.mp hr with heq | hr'
        · exact absurd heq (by simp)
        · exact Or.inr ⟨r, hr'⟩
    | some p =>
      obtain ⟨d', r'⟩ := p
      by_cases hd : d' = d
      · subst hd
        have hv : r' = v := hval r' (List.mem_cons_self _ _)
        subst hv
        exact Or.inl (dictLookup_dictSet_self acc d' r')
      · rcases hbase with h | ⟨r, hr⟩
        · left
          rw [show resStep acc (some (d', r')) = dictSet acc d' r' from rfl,
            dictLookup_dictSet_ne hd acc r']
          exact h
        · rcases List.mem_cons.mp hr with heq | hr'
          · exfalso
            simp only [Option.some.injEq, Prod.mk.injEq] at heq
            exact hd heq.1.symm
          · exact Or.inr ⟨r, hr'⟩

/-- C3 counterexample: the `results` mapping of a bulk lookup is NOT keyed
by the cleaned domain string.  For input `"A.COM"` it has no entry under
the cleaned key `"a.com"`; the entry sits under the raw `"A.COM"`. -/
theorem results_not_keyed_by_cleaned :
    clean (codes "A.COM") = codes "a.com" ∧
    dictLookup (clean (codes "A.COM"))
      (whois_domains [codes "A.COM"] envOk).results = none ∧
    dictLookup (codes "A.COM")
      (whois_domains [codes "A.COM"] envOk).results ≠ none := by
  decide

/-- C3 amended: for every non-crashed per-domain task, its `QueryResult` is
recorded in `results` under the raw input domain string as passed to the
bulk call (cleanup happens inside `whois_domain` and does not affect the
key). -/
theorem results_keyed_by_raw_input (domains : List PyStr) (env : Env)
    (d : PyStr) (hmem : d ∈ domains)
    (hcrash : env.taskCrash d = false) :
    dictLookup d (whois_domains domains env).results =
      some (whois_domain d env) := by
  have hres : (whois_domains domains env).results =
      (domains.map (taskOutcome env)).foldl resStep [] := by
    show (List.foldl bulkStep ([], 0, 0) (domains.map (taskOutcome env))).1 = _
    exact foldl_bulkStep_results _ [] 0 0
  rw [hres]
  apply dictLookup_foldl_resStep
  · intro r hr
    obtain ⟨d'', hd'', heq⟩ := List.mem_map.mp hr
    unfold taskOutcome at heq
    by_cases hcc : env.taskCrash d''
    · rw [if_pos hcc] at heq
      cases heq
    · rw [if_neg hcc] at heq
      injection heq with h1
      obtain ⟨h2, h3⟩ := Prod.mk.injEq .. |>.mp h1
      rw [← h3, h2]
  · right
    refine ⟨whois_domain d env, List.mem_map.mpr ⟨d, hmem, ?_⟩⟩
    simp [taskOutcome, hcrash]

/-- Witness for the amended C3 at a concrete bulk call. -/
theorem results_keyed_by_raw_input_witness :
    (codes "A.COM") ∈ [codes "A.COM"] ∧
    envOk.taskCrash (codes "A.COM") = false ∧
    dictLookup (codes "A.COM") (whois_domains [codes "A.COM"] envOk).results =
      some (whois_domain (codes "A.COM") envOk) := by
  refine ⟨by decide, by decide, ?_⟩
  exact results_keyed_by_raw_input [codes "A.COM"] envOk (codes "A.COM")
    (by decide) (by decide)

/-- C4.  Bulk lookup of `a.com`, `b.com`, `c.com` where `b.com`'s task
crashes and the sibling lookups succeed: `results` holds exactly `a.com`
and `c.com`, `errors = 1`, `total_domains = 3`. -/
theorem bulk_isolated_crash (env : Env)
    (ha : env.taskCrash (codes "a.com") = false)
    (hb : env.taskCrash (codes "b.com") = true)
    (hc : env.taskCrash (codes "c.com") = false)
    (hea : (whois_domain (codes "a.com") env).error = none)
    (hec : (whois_domain (codes "c.com") env).error = none) :
    (whois_domains [codes "a.com", codes "b.com", codes "c.com"]
        env).results.map Prod.fst = [codes "a.com", codes "c.com"] ∧
    (whois_domains [codes "a.com", codes "b.com", codes "c.com"]
        env).summary.errors = 1 ∧
    (whois_domains [codes "a.com", codes "b.com", codes "c.com"]
        env).summary.total_domains = 3 := by
  have h1 : taskOutcome env (codes "a.com") =
      some (codes "a.com", whois_domain (codes "a.com") env) := by
    simp [taskOutcome, ha]
  have h2 : taskOutcome env (codes "b.com") = none := by
    simp [taskOutcome, hb]
  have h3 : taskOutcome env (codes "c.com") =
      some (codes "c.com", whois_domain (codes "c.com") env) := by
    simp [taskOutcome, hc]
  have hne : codes "a.com" ≠ codes "c.com" := by decide
  refine ⟨?_, ?_, rfl⟩
  · show (List.foldl bulkStep ([], 0, 0) (List.map (taskOutcome env)
      [codes "a.com", codes "b.com", codes "c.com"])).1.map Prod.fst = _
    rw [List.map_cons, List.map_cons, List.map_cons, List.map_nil,
      h1, h2, h3]
    simp [List.foldl, bulkStep, dictSet, hne]
  · show (List.foldl bulkStep ([], 0, 0) (List.map (taskOutcome env)
      [codes "a.com", codes "b.com", codes "c.com"])).2.2 = 1
    rw [List.map_cons, List.map_cons, List.map_cons, List.map_nil,
      h1, h2, h3]
    simp [List.foldl, bulkStep, hea, hec]

/-- Witness for C4 at a concrete environment in which every lookup succeeds
but the `b.com` task crashes. -/
theorem bulk_isolated_crash_witness :
    envC4.taskCrash (codes "a.com") = false ∧
    envC4.taskCrash (codes "b.com") = true ∧
    envC4.taskCrash (codes "c.com") = false ∧
    (whois_domain (codes "a.com") envC4).error = none ∧
    (whois_domain (codes "c.com") envC4).error = none ∧
    (whois_domains [codes "a.com", codes "b.com", codes "c.com"]
        envC4).results.map Prod.fst = [codes "a.com", codes "c.com"] ∧
    (whois_domains [codes "a.com", codes "b.com", codes "c.com"]
        envC4).summary.errors = 1 ∧
    (whois_domains [codes "a.com", codes "b.com", codes "c.com"]
        envC4).summary.total_domains = 3 := by
  have h := bulk_isolated_crash envC4 (by decide) (by decide) (by decide)
    (by decide) (by decide)
  exact ⟨by decide, by decide, by decide, by decide, by decide,
    h.1, h.2.1, h.2.2⟩

lemma lineToPair_sound {line k v : PyStr}
    (h : lineToPair line = some (k, v)) : keyOK k ∧ v ≠ [] := by
  simp only [lineToPair] at h
  split at h
  · split at h
    · rename_i hkv
      injection h with h1
      obtain ⟨hk, hv⟩ := Prod.mk.injEq .. |>.mp h1
      subst hk
      subst hv
      refine ⟨?_, hkv.1⟩
      intro c hc
      obtain ⟨b, hb, rfl⟩ := List.mem_map.mp hc
      obtain ⟨b0, -, rfl⟩ := List.mem_map.mp hb
      unfold lowerChar
      split_ifs <;> omega
    · cases h
  · cases h

lemma insertField_preserve (k0 v0 : PyStr) (hk : keyOK k0) (hv : v0 ≠ []) :
    ∀ (acc : List (PyStr × FieldValue)),
      (∀ k v, (k, v) ∈ acc → keyOK k ∧ valOK v) →
      ∀ k v, (k, v) ∈ insertField acc k0 v0 → keyOK k ∧ valOK v := by
  intro acc
  induction acc with
  | nil =>
    intro _ k v hkv
    simp only [insertField, List.mem_singleton, Prod.mk.injEq] at hkv
    obtain ⟨rfl, rfl⟩ := hkv
    exact ⟨hk, hv⟩
  | cons p rest ih =>
    obtain ⟨k', w⟩ := p
    intro hacc k v hkv
    by_cases hpk : k' = k0
    · simp only [insertField, if_pos hpk] at hkv
      rcases List.mem_cons.mp hkv with heq | hmem
      · injection heq with h1 h2
        subst h1
        subst h2
        have hw := hacc _ w (List.mem_cons_self _ _)
        refine ⟨hw.1, ?_⟩
        cases w with
        | str s =>
          intro x hx
          rcases List.mem_cons.mp hx with rfl | hx
          · exact hw.2
          · rcases List.mem_singleton.mp hx with rfl
            exact hv
        | list l =>
          intro x hx
          rcases List.mem_append.mp hx with hx | hx
          · exact hw.2 x hx
          · rcases List.mem_singleton.mp hx with rfl
            exact hv
      · exact hacc k v (List.mem_cons_of_mem _ hmem)
    · simp only [insertField, if_neg hpk] at hkv
      rcases List.mem_cons.mp hkv with heq | hmem
      · injection heq with h1 h2
        subst h1
        subst h2
        exact hacc _ _ (List.mem_cons_self _ _)
      · exact ih (fun k v h => hacc k v (List.mem_cons_of_mem _ h)) k v hmem

lemma foldl_insert_preserve :
    ∀ (ps : List (PyStr × PyStr)),
      (∀ p ∈ ps, keyOK p.1 ∧ p.2 ≠ []) →
      ∀ (acc : List (PyStr × FieldValue)),
        (∀ k v, (k, v) ∈ acc → keyOK k ∧ valOK v) →
        ∀ k v,
          (k, v) ∈ ps.foldl (fun acc p => insertField acc p.1 p.2) acc →
          keyOK k ∧ valOK v := by
  intro ps
  induction ps with
  | nil => intro _ acc hacc k v hkv; exact hacc k v hkv
  | cons p rest ih =>
    intro hps acc hacc k v hkv
    exact ih (fun q hq => hps q (List.mem_cons_of_mem _ hq))
      (insertField acc p.1 p.2)
      (insertField_preserve p.1 p.2 (hps p (List.mem_cons_self _ _)).1
        (hps p (List.mem_cons_self _ _)).2 acc hacc) k v hkv

lemma lineToPair_skip {line : PyStr} (h : skipLine line) :
    lineToPair line = none := by
  simp only [lineToPair]
  rcases h with h | h | h | h
  · rw [if_neg]
    rintro ⟨hmem, -, -⟩
    rw [h] at hmem
    cases hmem
  · rw [if_neg]
    rintro ⟨-, h37, -⟩
    exact h37 h
  · rw [if_neg]
    rintro ⟨-, -, h35⟩
    exact h35 h
  · rw [if_neg]
    rintro ⟨hmem, -, -⟩
    exact h hmem

/-- C6.  Every key of the parsed field mapping is free of upper-case ASCII
and of spaces, no stored value is empty, and a line that is blank, starts
with `%` or `#`, or has no `:` contributes nothing to the mapping. -/
theorem parsed_fields_normalized :
    (∀ raw k v, (k, v) ∈ parseFields raw → keyOK k ∧ valOK v) ∧
    (∀ pre line post, skipLine line →
      parseLines (pre ++ line :: post) = parseLines (pre ++ post)) := by
  constructor
  · intro raw k v hkv
    have hkv' : (k, v) ∈ ((pySplit 10 raw).filterMap lineToPair).foldl
        (fun acc p => insertField acc p.1 p.2) [] := hkv
    refine foldl_insert_preserve _ ?_ [] ?_ k v hkv'
    · intro p hp
      obtain ⟨line, -, hline⟩ := List.mem_filterMap.mp hp
      obtain ⟨k', v'⟩ := p
      exact lineToPair_sound hline
    · intro k v h
      cases h
  · intro pre line post h
    simp [parseLines, List.filterMap_append, List.filterMap_cons,
      lineToPair_skip h]

/-- Witness for C6 on a concrete raw text with a banner line. -/
theorem parsed_fields_normalized_witness :
    (codes "domain_name", FieldValue.str (codes "X")) ∈
      parseFields (codes "Domain Name: X") ∧
    (keyOK (codes "domain_name") ∧ valOK (FieldValue.str (codes "X"))) ∧
    skipLine (codes "% banner") ∧
    parseLines [codes "Domain Name: X", codes "% banner"] =
      parseLines [codes "Domain Name: X"] := by
  have hskip : skipLine (codes "% banner") := Or.inr (Or.inl (by decide))
  refine ⟨by decide,
    parsed_fields_normalized.1 (codes "Domain Name: X")
      (codes "domain_name") (FieldValue.str (codes "X")) (by decide),
    hskip, ?_⟩
  exact parsed_fields_normalized.2 [codes "Domain Name: X"]
    (codes "% banner") [] hskip

lemma dictLookup_insertField_self (acc : List (PyStr × FieldValue))
    (k v : PyStr) :
    dictLookup k (insertField acc k v) =
      some (stepVal (dictLookup k acc) v) := by
  induction acc with
  | nil => simp [insertField, dictLookup, stepVal]
  | cons p rest ih =>
    obtain ⟨k', w⟩ := p
    by_cases h : k' = k
    · subst h
      simp [insertField, dictLookup, stepVal]
    · simp [insertField, dictLookup, h, ih]

lemma dictLookup_insertField_ne {k k0 : PyStr} (h : k0 ≠ k)
    (acc : List (PyStr × FieldValue)) (v : PyStr) :
    dictLookup k (insertField acc k0 v) = dictLookup k acc := by
  induction acc with
  | nil => simp [insertField, dictLookup, h]
  | cons p rest ih =>
    obtain ⟨k', w⟩ := p
    by_cases hk : k' = k0
    · subst hk
      simp [insertField, dictLookup, h]
    · by_cases hkk : k' = k <;>
        simp [insertField, dictLookup, hk, hkk, ih, Ne.symm h]

lemma lookup_parse_fold (k : PyStr) :
    ∀ (ps : List (PyStr × PyStr)) (acc : List (PyStr × FieldValue)),
      dictLookup k (ps.foldl (fun a p => insertField a p.1 p.2) acc) =
        accVal (dictLookup k acc) (occurrences k ps) := by
  intro ps
  induction ps with
  | nil => intro acc; rfl
  | cons p rest ih =>
    intro acc
    obtain ⟨k', v⟩ := p
    by_cases h : k' = k
    · subst h
      rw [List.foldl_cons, ih, dictLookup_insertField_self]
      simp [occurrences, accVal]
    · rw [List.foldl_cons, ih, dictLookup_insertField_ne h]
      simp [occurrences, h]

/-- C7.  A key with exactly three extracted occurrences `a, b, c` maps to
the ordered list `[a, b, c]`; a key with exactly one occurrence maps to the
plain string. -/
theorem repeated_key_promotion (raw : PyStr) (k : PyStr) :
    (∀ a b c, fieldOccurrences k raw = [a, b, c] →
      dictLookup k (parseFields raw) = some (.list [a, b, c])) ∧
    (∀ a, fieldOccurrences k raw = [a] →
      dictLookup k (parseFields raw) = some (.str a)) := by
  have hbase : dictLookup k (parseFields raw) =
      accVal none (fieldOccurrences k raw) :=
    lookup_parse_fold k _ []
  constructor
  · intro a b c h
    rw [hbase, h]
    rfl
  · intro a h
    rw [hbase, h]
    rfl

/-- Witness for C7: a key occurring three times and a key occurring once. -/
theorem repeated_key_promotion_witness :
    fieldOccurrences (codes "k") (codes "K: a\nK: b\nK: c\nOnce: z") =
      [codes "a", codes "b", codes "c"] ∧
    dictLookup (codes "k")
        (parseFields (codes "K: a\nK: b\nK: c\nOnce: z")) =
      some (.list [codes "a", codes "b", codes "c"]) ∧
    fieldOccurrences (codes "once") (codes "K: a\nK: b\nK: c\nOnce: z") =
      [codes "z"] ∧
    dictLookup (codes "once")
        (parseFields (codes "K: a\nK: b\nK: c\nOnce: z")) =
      some (.str (codes "z")) := by
  refine ⟨by decide, (repeated_key_promotion _ _).1 _ _ _ (by decide),
    by decide, (repeated_key_promotion _ _).2 _ (by decide)⟩

end DomainLookup
